import Mathlib

/-!
# Verification of the `matching` repository's core engine

This file shallowly embeds the Python sources of the `matching` repository
(`src/match/smp.py`, `src/match/utils.py`, `src/match/score.py`,
`src/match/hungarian.py`, `src/match/main.py`) and proves the spec's claims
about them.

Python dictionaries are modelled as association lists (`List (String × α)`)
with first-occurrence lookup and in-place update, which coincides with dict
semantics on duplicate-free key lists.  Randomness (`np.random.permutation`)
is injected as an explicit parameter and universally quantified in theorems.
-/

namespace MatchSpec

/-- Python `d[k]` as a total lookup returning `Option`: `none` models `KeyError`. -/
def dget {α : Type} : List (String × α) → String → Option α
  | [], _ => none
  | p :: t, k => if p.1 = k then some p.2 else dget t k

/-- Python dict assignment `d[k] = v`: replace the (first) binding in place,
or append a new binding at the end, exactly as dict insertion order behaves. -/
def dset {α : Type} : List (String × α) → String → α → List (String × α)
  | [], k, v => [(k, v)]
  | p :: t, k, v => if p.1 = k then (k, v) :: t else p :: dset t k v

/-- `list(d.keys())`. -/
def keys {α : Type} (l : List (String × α)) : List String :=
  l.map Prod.fst

/-- `list(d.values())` for string-valued dicts. -/
def vals (l : List (String × String)) : List String :=
  l.map Prod.snd

/-- Python `lst.index(x)`: position of the first occurrence, `none` models the
`ValueError` raised when `x` is absent. -/
def idxOf : List String → String → Option Nat
  | [], _ => none
  | y :: t, x => if y = x then some 0 else (idxOf t x).map (· + 1)

/-- Python `set.add` on a set represented as a duplicate-free list. -/
def setAdd (w : String) (d : List String) : List String :=
  if w ∈ d then d else w :: d

/-! ## Basic dictionary lemmas -/

theorem keys_cons {α : Type} (a : String) (b : α) (t : List (String × α)) :
    keys ((a, b) :: t) = a :: keys t := rfl

theorem mem_keys_iff {α : Type} (l : List (String × α)) (k : String) :
    k ∈ keys l ↔ ∃ v, (k, v) ∈ l := by
  induction l with
  | nil => simp [keys]
  | cons p t ih =>
    obtain ⟨a, b⟩ := p
    constructor
    · intro h
      rw [keys_cons] at h
      rcases List.mem_cons.mp h with h | h
      · exact ⟨b, by simp [h]⟩
      · obtain ⟨v, hv⟩ := ih.mp h
        exact ⟨v, List.mem_cons_of_mem _ hv⟩
    · rintro ⟨v, hv⟩
      rcases List.mem_cons.mp hv with h | h
      · rw [keys_cons]
        exact List.mem_cons.mpr (Or.inl (congrArg Prod.fst h))
      · rw [keys_cons]
        exact List.mem_cons_of_mem _ (ih.mpr ⟨v, h⟩)

theorem dget_eq_none {α : Type} (l : List (String × α)) (k : String) :
    dget l k = none ↔ k ∉ keys l := by
  induction l with
  | nil => simp [dget, keys]
  | cons p t ih =>
    obtain ⟨a, b⟩ := p
    rw [keys_cons]
    by_cases h : a = k
    · subst h
      simp [dget]
    · rw [List.mem_cons]
      constructor
      · intro hnone hmem
        rcases hmem with e | e
        · exact h e.symm
        · exact (ih.mp (by simpa [dget, h] using hnone)) e
      · intro hnmem
        simp [dget, h]
        exact ih.mpr fun e => hnmem (Or.inr e)

theorem dget_isSome_of_mem {α : Type} (l : List (String × α)) (k : String)
    (h : k ∈ keys l) : ∃ v, dget l k = some v := by
  cases hv : dget l k with
  | some v => exact ⟨v, rfl⟩
  | none => exact absurd ((dget_eq_none l k).mp hv) (not_not.mpr h)

theorem mem_keys_of_dget {α : Type} {l : List (String × α)} {k : String} {v : α}
    (h : dget l k = some v) : k ∈ keys l := by
  by_contra hk
  rw [← dget_eq_none l k] at hk
  simp [hk] at h

theorem mem_of_dget {α : Type} {l : List (String × α)} {k : String} {v : α}
    (h : dget l k = some v) : (k, v) ∈ l := by
  induction l with
  | nil => simp [dget] at h
  | cons p t ih =>
    obtain ⟨a, b⟩ := p
    by_cases hp : a = k
    · subst hp
      simp [dget] at h
      simp [h]
    · simp [dget, hp] at h
      exact List.mem_cons_of_mem _ (ih h)

/-- Splitting view of a successful lookup: the dictionary decomposes around the
first binding of `k`, and `dset` rewrites exactly that binding. -/
theorem dget_some_split {α : Type} {l : List (String × α)} {k : String} {v : α}
    (h : dget l k = some v) :
    ∃ l₁ l₂, l = l₁ ++ (k, v) :: l₂ ∧ k ∉ keys l₁ ∧
      ∀ v', dset l k v' = l₁ ++ (k, v') :: l₂ := by
  induction l with
  | nil => simp [dget] at h
  | cons p t ih =>
    obtain ⟨a, b⟩ := p
    by_cases hp : a = k
    · subst hp
      simp [dget] at h
      refine ⟨[], t, by simp [h], by simp [keys], ?_⟩
      intro v'
      simp [dset]
    · simp [dget, hp] at h
      obtain ⟨l₁, l₂, rfl, hk, hset⟩ := ih h
      refine ⟨(a, b) :: l₁, l₂, by simp, ?_, ?_⟩
      · rw [keys_cons]
        intro hmem
        rcases List.mem_cons.mp hmem with e | e
        · exact hp e.symm
        · exact hk e
      · intro v'
        simp [dset, hp, hset v']

theorem dget_dset_self {α : Type} (l : List (String × α)) (k : String) (v : α) :
    dget (dset l k v) k = some v := by
  induction l with
  | nil => simp [dget, dset]
  | cons p t ih =>
    obtain ⟨a, b⟩ := p
    by_cases hp : a = k <;> simp [dget, dset, hp, ih]

theorem dget_dset_ne {α : Type} (l : List (String × α)) (k k' : String) (v : α)
    (h : k' ≠ k) : dget (dset l k v) k' = dget l k' := by
  have h' : k ≠ k' := Ne.symm h
  induction l with
  | nil => simp [dget, dset, h']
  | cons p t ih =>
    obtain ⟨a, b⟩ := p
    by_cases hp : a = k
    · subst hp
      simp [dget, dset, h']
    · simp [dset, hp, dget, ih]

theorem keys_dset_of_mem {α : Type} (l : List (String × α)) (k : String) (v : α)
    (h : k ∈ keys l) : keys (dset l k v) = keys l := by
  induction l with
  | nil => simp [keys] at h
  | cons p t ih =>
    obtain ⟨a, b⟩ := p
    by_cases hp : a = k
    · subst hp
      simp [dset, keys_cons]
    · rw [keys_cons] at h
      rcases List.mem_cons.mp h with e | e
      · exact (hp e.symm).elim
      · simp [dset, hp, keys_cons, ih e]

theorem dset_of_not_mem {α : Type} (l : List (String × α)) (k : String) (v : α)
    (h : k ∉ keys l) : dset l k v = l ++ [(k, v)] := by
  induction l with
  | nil => simp [dset]
  | cons p t ih =>
    obtain ⟨a, b⟩ := p
    rw [keys_cons] at h
    have h1 : a ≠ k := fun e => h (List.mem_cons.mpr (Or.inl e.symm))
    have h2 : k ∉ keys t := fun e => h (List.mem_cons_of_mem _ e)
    simp [dset, h1, ih h2]

theorem idxOf_of_mem (l : List String) (x : String) (h : x ∈ l) :
    idxOf l x = some (l.indexOf x) := by
  induction l with
  | nil => simp at h
  | cons y t ih =>
    by_cases hy : y = x
    · subst hy
      simp [idxOf, List.indexOf_cons_self]
    · rcases List.mem_cons.mp h with e | e
      · exact (hy e.symm).elim
      · rw [idxOf, if_neg hy, ih e, List.indexOf_cons_ne _ hy]
        rfl

/-! ## The Deferred Acceptance Solver (`src/match/smp.py`)

`solve` is embedded as a fuel-indexed loop over an explicit state.  The fuel
only guards against non-termination of the translation; `solve` passes enough
fuel and we prove the `outOfFuel` outcome unreachable.  The Python exceptions
are modelled by dedicated result values:
  * `invalidInput`: the exception raised by `validate_input`;
  * `runtimeError`: `KeyError` / `IndexError` (`pop` on an empty list) /
    `ValueError` (`list.index` of an absent element) inside the loop.
-/

inductive SolveResult where
  | ok (mats : List (String × String))
  | invalidInput
  | runtimeError
  | outOfFuel
deriving DecidableEq

/-- The mutable state of the `while` loop in `smp.solve`:
remaining preference lists of the women, the queue of free women, the `done`
set, and the man-keyed match dict. -/
structure SmpState where
  wprefs : List (String × List String)
  free : List String
  done : List String
  mats : List (String × String)
deriving DecidableEq

/-- One-for-one translation of the `while` loop of `smp.solve`.
`n = len(w_prefs)` and `mprefs` (never mutated after the deep copy) are fixed. -/
def smpLoop (n : Nat) (mprefs : List (String × List String)) :
    Nat → SmpState → SolveResult
  | fuel, st =>
    match st.free with
    | [] => .ok st.mats
    | w :: rest =>
      if st.done.length < n then
        match fuel with
        | 0 => .outOfFuel
        | fuel + 1 =>
          match dget st.wprefs w with
          | none => .runtimeError
          | some [] => .runtimeError
          | some (m :: ms) =>
            let wprefs' := dset st.wprefs w ms
            let done' := if ms = [] then setAdd w st.done else st.done
            match dget st.mats m with
            | none =>
                smpLoop n mprefs fuel
                  ⟨wprefs', rest, done', dset st.mats m w⟩
            | some w' =>
                match dget mprefs m with
                | none => .runtimeError
                | some mpl =>
                    match idxOf mpl w, idxOf mpl w' with
                    | some i, some i' =>
                        if i < i' then
                          smpLoop n mprefs fuel
                            ⟨wprefs', rest ++ [w'], done', dset st.mats m w⟩
                        else
                          smpLoop n mprefs fuel
                            ⟨wprefs', rest ++ [w], done', st.mats⟩
                    | _, _ => .runtimeError
      else .ok st.mats

/-- `validate_prefs(prefs, choices)`: every preference list has the same
element set as `choices` (`set(pref_list) == choices`). -/
def validatePrefs (prefs : List (String × List String)) (choices : List String) : Prop :=
  ∀ p ∈ prefs, (∀ x ∈ p.2, x ∈ choices) ∧ (∀ x ∈ choices, x ∈ p.2)

instance (prefs : List (String × List String)) (choices : List String) :
    Decidable (validatePrefs prefs choices) := by
  unfold validatePrefs
  infer_instance

/-- `validate_input(m_prefs, w_prefs)`: equal numbers of distinct keys, and
both sides' preference lists pass `validate_prefs`. -/
def validateInput (mprefs wprefs : List (String × List String)) : Prop :=
  (keys wprefs).dedup.length = (keys mprefs).dedup.length ∧
    validatePrefs wprefs (keys mprefs) ∧ validatePrefs mprefs (keys wprefs)

instance (mprefs wprefs : List (String × List String)) :
    Decidable (validateInput mprefs wprefs) := by
  unfold validateInput
  infer_instance

/-- Total length of the remaining preference lists; each loop iteration that
recurses consumes exactly one entry (the `pop(0)`), so this bounds the number
of iterations. -/
def totalPrefLen (wprefs : List (String × List String)) : Nat :=
  (wprefs.map fun p => p.2.length).sum

/-- `smp.solve(w_prefs_i, m_prefs_i)`.  `free0` is the injected value of
`np.random.permutation(list(w_prefs.keys()))`; theorems quantify over every
permutation.  The deep copies are identities in this functional model. -/
def smpSolve (wprefs mprefs : List (String × List String)) (free0 : List String) :
    SolveResult :=
  if validateInput mprefs wprefs then
    smpLoop wprefs.length mprefs (totalPrefLen wprefs + 1)
      ⟨wprefs, free0, [], []⟩
  else .invalidInput

/-! ## Well-formed inputs and the loop invariant -/

/-- A pair of preference dictionaries that is well formed in the sense of the
spec's data model: distinct keys on both sides, equally many, and every
preference list duplicate-free and covering exactly the opposite side's keys
(hence a permutation of them). -/
structure ValidInput (wprefs mprefs : List (String × List String)) : Prop where
  wnodup : (keys wprefs).Nodup
  mnodup : (keys mprefs).Nodup
  sizes : (keys wprefs).length = (keys mprefs).length
  wcomplete : ∀ p ∈ wprefs, List.Perm p.2 (keys mprefs)
  mcomplete : ∀ p ∈ mprefs, List.Perm p.2 (keys wprefs)

theorem ValidInput.validate {wprefs mprefs : List (String × List String)}
    (V : ValidInput wprefs mprefs) : validateInput mprefs wprefs := by
  refine ⟨?_, ?_, ?_⟩
  · rw [V.wnodup.dedup, V.mnodup.dedup]
    exact V.sizes
  · intro p hp
    have h := V.wcomplete p hp
    exact ⟨fun x hx => h.subset hx, fun x hx => h.mem_iff.mpr hx⟩
  · intro p hp
    have h := V.mcomplete p hp
    exact ⟨fun x hx => h.subset hx, fun x hx => h.mem_iff.mpr hx⟩

/-- The prefix of `full` already consumed (proposed to) when `rem` remains. -/
def consumed (full rem : List String) : List String :=
  full.take (full.length - rem.length)

theorem consumed_of_append (pre rem : List String) :
    consumed (pre ++ rem) rem = pre := by
  unfold consumed
  have h : (pre ++ rem).length - rem.length = pre.length := by simp
  rw [h, List.take_left]

theorem consumed_nil (full : List String) : consumed full [] = full := by
  simp [consumed]

theorem consumed_pop {full pre rem : List String} {m : String}
    (h : full = pre ++ m :: rem) : consumed full rem = pre ++ [m] := by
  have h' : full = (pre ++ [m]) ++ rem := by simp [h]
  rw [h']
  exact consumed_of_append (pre ++ [m]) rem

/-- The invariant of the `while` loop of `smp.solve`, relative to the
original (deep-copied) inputs `W0` (women's preference dict, whose lists the
loop consumes) and `M0` (men's preference dict, read-only). -/
structure Inv (W0 M0 : List (String × List String)) (st : SmpState) : Prop where
  keysEq : keys st.wprefs = keys W0
  suffix : ∀ w rem, dget st.wprefs w = some rem →
    ∃ full pre, dget W0 w = some full ∧ full = pre ++ rem
  freeMem : ∀ w ∈ st.free, w ∈ keys W0
  freeMatched : List.Perm (st.free ++ vals st.mats) (keys W0)
  matsKeysNodup : (keys st.mats).Nodup
  matsKeysMem : ∀ m ∈ keys st.mats, m ∈ keys M0
  proposedMatched : ∀ w full rem, dget W0 w = some full →
    dget st.wprefs w = some rem → ∀ m ∈ consumed full rem, m ∈ keys st.mats
  lastProposal : ∀ m w, dget st.mats m = some w →
    ∃ full rem pre, dget W0 w = some full ∧ dget st.wprefs w = some rem ∧
      full = pre ++ m :: rem
  noWorse : ∀ m w', dget st.mats m = some w' → ∀ w full rem,
    dget W0 w = some full → dget st.wprefs w = some rem → w ≠ w' →
    m ∈ consumed full rem →
    ∀ mpl, dget M0 m = some mpl → mpl.indexOf w' < mpl.indexOf w
  doneSpec : ∀ w ∈ st.done, w ∈ keys W0 ∧ dget st.wprefs w = some []
  doneNodup : st.done.Nodup

theorem inv_init {W0 M0 : List (String × List String)} {free0 : List String}
    (hperm : List.Perm free0 (keys W0)) :
    Inv W0 M0 ⟨W0, free0, [], []⟩ := by
  refine ⟨rfl, ?_, ?_, ?_, ?_, ?_, ?_, ?_, ?_, ?_, ?_⟩
  · intro w rem h
    exact ⟨rem, [], h, rfl⟩
  · intro w hw
    exact hperm.subset hw
  · simpa [vals] using hperm
  · simp [keys]
  · intro m hm
    simp [keys] at hm
  · intro w full rem h1 h2
    rw [h1] at h2
    injection h2 with h2
    subst h2
    intro m hm
    simp [consumed] at hm
  · intro m w h
    simp [dget] at h
  · intro m w' h
    simp [dget] at h
  · intro w hw
    simp at hw
  · exact List.nodup_nil

/-- Every currently matched woman is one of the input's women. -/
theorem Inv.valMem {W0 M0 : List (String × List String)} {st : SmpState}
    (I : Inv W0 M0 st) {x : String} (hx : x ∈ vals st.mats) : x ∈ keys W0 :=
  I.freeMatched.subset (List.mem_append_right _ hx)

theorem mem_vals_of_dget {l : List (String × String)} {k v : String}
    (h : dget l k = some v) : v ∈ vals l := by
  have := mem_of_dget h
  exact List.mem_map.mpr ⟨(k, v), this, rfl⟩

/-- A woman in the free queue is not currently matched to anybody. -/
theorem Inv.free_notin_vals {W0 M0 : List (String × List String)} {st : SmpState}
    (V : ValidInput W0 M0) (I : Inv W0 M0 st) {w : String}
    (hw : w ∈ st.free) : w ∉ vals st.mats := by
  intro hv
  have hcount := I.freeMatched.count_eq w
  have h1 : 1 ≤ st.free.count w := List.count_pos_iff.mpr hw
  have h2 : 1 ≤ (vals st.mats).count w := List.count_pos_iff.mpr hv
  have h3 : (keys W0).count w ≤ 1 := List.nodup_iff_count_le_one.mp V.wnodup w
  rw [List.count_append] at hcount
  omega

/-- The core safety fact behind the never-failing `pop(0)`: a woman still in
the free queue always has a nonempty remaining preference list.  If she had
exhausted her list, all men would already be matched, so by counting every
woman — including her — would be matched, contradicting her being free. -/
theorem free_rem_ne_nil {W0 M0 : List (String × List String)} {st : SmpState}
    (V : ValidInput W0 M0) (I : Inv W0 M0 st) {w : String}
    (hw : w ∈ st.free) {rem : List String}
    (hrem : dget st.wprefs w = some rem) : rem ≠ [] := by
  intro h0
  subst h0
  obtain ⟨full, pre, hfull, hpre⟩ := I.suffix w [] hrem
  have hsubfull : ∀ m ∈ full, m ∈ keys st.mats := by
    intro m hm
    exact I.proposedMatched w full [] hfull hrem m (by rw [consumed_nil]; exact hm)
  have hfullperm : List.Perm full (keys M0) := V.wcomplete _ (mem_of_dget hfull)
  have hMsub : keys M0 ⊆ keys st.mats := fun m hm =>
    hsubfull m (hfullperm.mem_iff.mpr hm)
  have h1 : (keys M0).length ≤ (keys st.mats).length :=
    (V.mnodup.subperm hMsub).length_le
  have h2 : (keys st.mats).length ≤ (keys M0).length :=
    (I.matsKeysNodup.subperm I.matsKeysMem).length_le
  have hvals : (vals st.mats).length = (keys st.mats).length := by
    simp [vals, keys]
  have hflen := I.freeMatched.length_eq
  rw [List.length_append] at hflen
  have hfree0 : st.free.length = 0 := by
    have := V.sizes
    omega
  rw [List.length_eq_zero] at hfree0
  rw [hfree0] at hw
  simp at hw

/-- The `len(done) < n` exit can only fire with an empty free queue: if all
women were exhausted, every woman would be matched, so none would be free. -/
theorem done_exit_empty_free {W0 M0 : List (String × List String)} {st : SmpState}
    (V : ValidInput W0 M0) (I : Inv W0 M0 st) {w : String}
    (hw : w ∈ st.free) (hn : W0.length ≤ st.done.length) : False := by
  have hkeysLen : (keys W0).length = W0.length := by simp [keys]
  have hsub : st.done ⊆ keys W0 := fun x hx => (I.doneSpec x hx).1
  have hsp := I.doneNodup.subperm hsub
  have hperm : List.Perm st.done (keys W0) := hsp.perm_of_length_le (by omega)
  have hwdone : w ∈ st.done := hperm.mem_iff.mpr (I.freeMem w hw)
  exact free_rem_ne_nil V I hw (I.doneSpec w hwdone).2 rfl

/-! ## Preservation of the invariant by one loop iteration -/

theorem totalPrefLen_dset {l : List (String × List String)} {w m : String}
    {ms : List String} (h : dget l w = some (m :: ms)) :
    totalPrefLen (dset l w ms) + 1 = totalPrefLen l := by
  obtain ⟨l1, l2, rfl, hk, hset⟩ := dget_some_split h
  rw [hset ms]
  simp [totalPrefLen]
  omega

theorem vals_dset {l : List (String × String)} {k v₀ : String}
    (h : dget l k = some v₀) (v : String) :
    ∃ a b, vals l = a ++ v₀ :: b ∧ vals (dset l k v) = a ++ v :: b := by
  obtain ⟨l1, l2, rfl, hk, hset⟩ := dget_some_split h
  exact ⟨vals l1, vals l2, by simp [vals], by rw [hset v]; simp [vals]⟩

/-- The `suffix` clause survives consuming the head of `w`'s list. -/
theorem suffix_dset {W0 M0 : List (String × List String)} {st : SmpState}
    (I : Inv W0 M0 st) {w m : String} {ms : List String}
    (hrem : dget st.wprefs w = some (m :: ms)) :
    ∀ w2 rem2, dget (dset st.wprefs w ms) w2 = some rem2 →
      ∃ full pre, dget W0 w2 = some full ∧ full = pre ++ rem2 := by
  intro w2 rem2 h2
  by_cases hw2 : w2 = w
  · subst hw2
    rw [dget_dset_self] at h2
    injection h2 with h2
    subst h2
    obtain ⟨full, pre, hfull, hpre⟩ := I.suffix w2 _ hrem
    exact ⟨full, pre ++ [m], hfull, by simp [hpre]⟩
  · rw [dget_dset_ne _ _ _ _ hw2] at h2
    exact I.suffix w2 rem2 h2

/-- The `done` clauses survive one iteration (all three branches update
`done` and `wprefs` identically). -/
theorem done_dset {W0 M0 : List (String × List String)} {st : SmpState}
    (I : Inv W0 M0 st) {w m : String} {ms : List String} (hwK : w ∈ keys W0)
    (hrem : dget st.wprefs w = some (m :: ms)) :
    (∀ x ∈ (if ms = [] then setAdd w st.done else st.done),
        x ∈ keys W0 ∧ dget (dset st.wprefs w ms) x = some []) ∧
      (if ms = [] then setAdd w st.done else st.done).Nodup := by
  have hnotdone : w ∉ st.done := by
    intro hd
    have := (I.doneSpec w hd).2
    rw [hrem] at this
    simp at this
  have hold : ∀ x ∈ st.done, x ∈ keys W0 ∧
      dget (dset st.wprefs w ms) x = some [] := by
    intro x hx
    have hx' := I.doneSpec x hx
    have hxw : x ≠ w := fun e => hnotdone (e ▸ hx)
    exact ⟨hx'.1, by rw [dget_dset_ne _ _ _ _ hxw]; exact hx'.2⟩
  by_cases hms : ms = []
  · subst hms
    simp only [if_pos rfl]
    refine ⟨?_, ?_⟩
    · intro x hx
      rcases (by simpa [setAdd, hnotdone] using hx : x = w ∨ x ∈ st.done) with e | e
      · subst e
        exact ⟨hwK, dget_dset_self _ _ _⟩
      · exact hold x e
    · simp [setAdd, hnotdone, I.doneNodup]
  · simp only [if_neg hms]
    exact ⟨hold, I.doneNodup⟩

/-- The `proposedMatched` clause survives one iteration, for any update of
the match dict whose key set contains the old keys together with `m`. -/
theorem proposedMatched_step {W0 M0 : List (String × List String)} {st : SmpState}
    (I : Inv W0 M0 st) {w m : String} {ms : List String}
    (hrem : dget st.wprefs w = some (m :: ms))
    (matsKeys' : List String)
    (hsub : ∀ x ∈ keys st.mats, x ∈ matsKeys') (hmmem : m ∈ matsKeys') :
    ∀ w2 full2 rem2, dget W0 w2 = some full2 →
      dget (dset st.wprefs w ms) w2 = some rem2 →
      ∀ m2 ∈ consumed full2 rem2, m2 ∈ matsKeys' := by
  intro w2 full2 rem2 hf2 hr2 m2 hm2
  by_cases hw2 : w2 = w
  · subst hw2
    rw [dget_dset_self] at hr2
    injection hr2 with hr2
    subst hr2
    obtain ⟨full, pre, hfull, hpre⟩ := I.suffix w2 _ hrem
    rw [hfull] at hf2
    injection hf2 with hf2
    subst hf2
    rw [consumed_pop hpre] at hm2
    rcases List.mem_append.mp hm2 with h | h
    · have hc : m2 ∈ consumed full (m :: ms) := by
        rw [hpre, consumed_of_append pre (m :: ms)]
        exact h
      exact hsub m2 (I.proposedMatched w2 full (m :: ms) hfull hrem m2 hc)
    · simp at h
      subst h
      exact hmmem
  · rw [dget_dset_ne _ _ _ _ hw2] at hr2
    exact hsub m2 (I.proposedMatched w2 full2 rem2 hf2 hr2 m2 hm2)

/-- Preservation, branch 1 (`m not in matches`): the free man accepts. -/
theorem inv_accept {W0 M0 : List (String × List String)} {st : SmpState}
    (V : ValidInput W0 M0) (I : Inv W0 M0 st) {w m : String} {ms rest : List String}
    (hfree : st.free = w :: rest) (hrem : dget st.wprefs w = some (m :: ms))
    (hm : dget st.mats m = none) :
    Inv W0 M0 ⟨dset st.wprefs w ms, rest,
      if ms = [] then setAdd w st.done else st.done, dset st.mats m w⟩ := by
  have hwfree : w ∈ st.free := by
    rw [hfree]
    exact List.mem_cons_self w rest
  have hwK : w ∈ keys W0 := I.freeMem w hwfree
  have hwKst : w ∈ keys st.wprefs := I.keysEq ▸ hwK
  obtain ⟨full, pre, hfull, hfeq⟩ := I.suffix w _ hrem
  have hmnotK : m ∉ keys st.mats := (dget_eq_none _ _).mp hm
  have hmats' : dset st.mats m w = st.mats ++ [(m, w)] := dset_of_not_mem _ _ _ hmnotK
  have hmfull : m ∈ full := by
    rw [hfeq]
    simp
  have hmM : m ∈ keys M0 := (V.wcomplete _ (mem_of_dget hfull)).subset hmfull
  have hkeys' : keys (dset st.mats m w) = keys st.mats ++ [m] := by
    rw [hmats']
    simp [keys]
  have hwnotval : w ∉ vals st.mats := I.free_notin_vals V hwfree
  obtain ⟨hdone1, hdone2⟩ := done_dset I hwK hrem
  refine ⟨?_, suffix_dset I hrem, ?_, ?_, ?_, ?_, ?_, ?_, ?_, hdone1, hdone2⟩
  · rw [keys_dset_of_mem _ _ _ hwKst]
    exact I.keysEq
  · intro x hx
    exact I.freeMem x (by rw [hfree]; exact List.mem_cons_of_mem _ hx)
  · have hFM := I.freeMatched
    rw [hfree] at hFM
    refine (List.perm_iff_count.mpr ?_).trans hFM
    intro x
    rw [hmats']
    by_cases hx : x = w <;>
      simp [vals, List.count_append, List.count_cons, hx] <;> omega
  · rw [hkeys']
    simp [List.nodup_append, I.matsKeysNodup, hmnotK]
  · rw [hkeys']
    intro x hx
    rcases List.mem_append.mp hx with h | h
    · exact I.matsKeysMem x h
    · simp at h
      subst h
      exact hmM
  · refine proposedMatched_step I hrem _ ?_ ?_
    · intro x hx
      rw [hkeys']
      exact List.mem_append_left _ hx
    · rw [hkeys']
      exact List.mem_append_right _ (by simp)
  · intro m2 w2 h2
    by_cases hm2 : m2 = m
    · subst hm2
      rw [dget_dset_self] at h2
      injection h2 with h2
      subst h2
      exact ⟨full, ms, pre, hfull, by rw [dget_dset_self], hfeq⟩
    · rw [dget_dset_ne _ _ _ _ hm2] at h2
      obtain ⟨full2, rem2, pre2, hf2, hr2, he2⟩ := I.lastProposal m2 w2 h2
      have hw2 : w2 ≠ w := by
        intro e
        subst e
        exact hwnotval (mem_vals_of_dget h2)
      exact ⟨full2, rem2, pre2, hf2, by rw [dget_dset_ne _ _ _ _ hw2]; exact hr2, he2⟩
  · intro m2 w2 h2 w3 full3 rem3 hf3 hr3 hne hcons mpl hmpl
    by_cases hm2 : m2 = m
    · subst hm2
      rw [dget_dset_self] at h2
      injection h2 with h2
      subst h2
      by_cases hw3 : w3 = w
      · exact absurd hw3 hne
      · rw [dget_dset_ne _ _ _ _ hw3] at hr3
        exact absurd (I.proposedMatched w3 full3 rem3 hf3 hr3 m2 hcons) hmnotK
    · rw [dget_dset_ne _ _ _ _ hm2] at h2
      by_cases hw3 : w3 = w
      · subst hw3
        rw [dget_dset_self] at hr3
        injection hr3 with hr3
        subst hr3
        rw [hfull] at hf3
        injection hf3 with hf3
        subst hf3
        rw [consumed_pop hfeq] at hcons
        rcases List.mem_append.mp hcons with h | h
        · have hc : m2 ∈ consumed full (m :: ms) := by
            rw [hfeq, consumed_of_append pre (m :: ms)]
            exact h
          exact I.noWorse m2 w2 h2 w3 full (m :: ms) hfull hrem hne hc mpl hmpl
        · simp at h
          exact absurd h hm2
      · rw [dget_dset_ne _ _ _ _ hw3] at hr3
        exact I.noWorse m2 w2 h2 w3 full3 rem3 hf3 hr3 hne hcons mpl hmpl

/-- Preservation, branch 2 (the proposee jilts his current partner `wj`). -/
theorem inv_jilt {W0 M0 : List (String × List String)} {st : SmpState}
    (V : ValidInput W0 M0) (I : Inv W0 M0 st) {w m wj : String}
    {ms rest mpl0 : List String}
    (hfree : st.free = w :: rest) (hrem : dget st.wprefs w = some (m :: ms))
    (hm : dget st.mats m = some wj) (hmpl0 : dget M0 m = some mpl0)
    (hlt : mpl0.indexOf w < mpl0.indexOf wj) :
    Inv W0 M0 ⟨dset st.wprefs w ms, rest ++ [wj],
      if ms = [] then setAdd w st.done else st.done, dset st.mats m w⟩ := by
  have hwfree : w ∈ st.free := by
    rw [hfree]
    exact List.mem_cons_self w rest
  have hwK : w ∈ keys W0 := I.freeMem w hwfree
  have hwKst : w ∈ keys st.wprefs := I.keysEq ▸ hwK
  obtain ⟨full, pre, hfull, hfeq⟩ := I.suffix w _ hrem
  have hmK : m ∈ keys st.mats := mem_keys_of_dget hm
  have hkeys' : keys (dset st.mats m w) = keys st.mats := keys_dset_of_mem _ _ _ hmK
  have hwjval : wj ∈ vals st.mats := mem_vals_of_dget hm
  have hwjK : wj ∈ keys W0 := I.valMem hwjval
  have hwnotval : w ∉ vals st.mats := I.free_notin_vals V hwfree
  obtain ⟨hdone1, hdone2⟩ := done_dset I hwK hrem
  refine ⟨?_, suffix_dset I hrem, ?_, ?_, ?_, ?_, ?_, ?_, ?_, hdone1, hdone2⟩
  · rw [keys_dset_of_mem _ _ _ hwKst]
    exact I.keysEq
  · intro x hx
    rcases List.mem_append.mp hx with h | h
    · exact I.freeMem x (by rw [hfree]; exact List.mem_cons_of_mem _ h)
    · simp at h
      subst h
      exact hwjK
  · obtain ⟨a, b, hv1, hv2⟩ := vals_dset hm w
    have hFM := I.freeMatched
    rw [hfree, hv1] at hFM
    rw [hv2]
    refine (List.perm_iff_count.mpr ?_).trans hFM
    intro x
    by_cases hx : x = w <;> by_cases hx' : x = wj <;>
      simp [List.count_append, List.count_cons, hx, hx'] <;> omega
  · rw [hkeys']
    exact I.matsKeysNodup
  · rw [hkeys']
    exact I.matsKeysMem
  · refine proposedMatched_step I hrem _ ?_ ?_
    · intro x hx
      rw [hkeys']
      exact hx
    · rw [hkeys']
      exact hmK
  · intro m2 w2 h2
    by_cases hm2 : m2 = m
    · subst hm2
      rw [dget_dset_self] at h2
      injection h2 with h2
      subst h2
      exact ⟨full, ms, pre, hfull, by rw [dget_dset_self], hfeq⟩
    · rw [dget_dset_ne _ _ _ _ hm2] at h2
      obtain ⟨full2, rem2, pre2, hf2, hr2, he2⟩ := I.lastProposal m2 w2 h2
      have hw2 : w2 ≠ w := by
        intro e
        subst e
        exact hwnotval (mem_vals_of_dget h2)
      exact ⟨full2, rem2, pre2, hf2, by rw [dget_dset_ne _ _ _ _ hw2]; exact hr2, he2⟩
  · intro m2 w2 h2 w3 full3 rem3 hf3 hr3 hne hcons mpl hmpl
    by_cases hm2 : m2 = m
    · subst hm2
      rw [dget_dset_self] at h2
      injection h2 with h2
      subst h2
      rw [hmpl0] at hmpl
      injection hmpl with hmpl
      subst hmpl
      by_cases hw3 : w3 = w
      · exact absurd hw3 hne
      · rw [dget_dset_ne _ _ _ _ hw3] at hr3
        by_cases hw3j : w3 = wj
        · subst hw3j
          exact hlt
        · have hold := I.noWorse m2 wj hm w3 full3 rem3 hf3 hr3 hw3j hcons mpl0 hmpl0
          omega
    · rw [dget_dset_ne _ _ _ _ hm2] at h2
      by_cases hw3 : w3 = w
      · subst hw3
        rw [dget_dset_self] at hr3
        injection hr3 with hr3
        subst hr3
        rw [hfull] at hf3
        injection hf3 with hf3
        subst hf3
        rw [consumed_pop hfeq] at hcons
        rcases List.mem_append.mp hcons with h | h
        · have hc : m2 ∈ consumed full (m :: ms) := by
            rw [hfeq, consumed_of_append pre (m :: ms)]
            exact h
          exact I.noWorse m2 w2 h2 w3 full (m :: ms) hfull hrem hne hc mpl hmpl
        · simp at h
          exact absurd h hm2
      · rw [dget_dset_ne _ _ _ _ hw3] at hr3
        exact I.noWorse m2 w2 h2 w3 full3 rem3 hf3 hr3 hne hcons mpl hmpl

/-- Preservation, branch 3 (the proposee rejects the proposal). -/
theorem inv_reject {W0 M0 : List (String × List String)} {st : SmpState}
    (V : ValidInput W0 M0) (I : Inv W0 M0 st) {w m wj : String}
    {ms rest mpl0 : List String}
    (hfree : st.free = w :: rest) (hrem : dget st.wprefs w = some (m :: ms))
    (hm : dget st.mats m = some wj) (hmpl0 : dget M0 m = some mpl0)
    (hge : mpl0.indexOf wj ≤ mpl0.indexOf w) :
    Inv W0 M0 ⟨dset st.wprefs w ms, rest ++ [w],
      if ms = [] then setAdd w st.done else st.done, st.mats⟩ := by
  have hwfree : w ∈ st.free := by
    rw [hfree]
    exact List.mem_cons_self w rest
  have hwK : w ∈ keys W0 := I.freeMem w hwfree
  have hwKst : w ∈ keys st.wprefs := I.keysEq ▸ hwK
  obtain ⟨full, pre, hfull, hfeq⟩ := I.suffix w _ hrem
  have hmK : m ∈ keys st.mats := mem_keys_of_dget hm
  have hwnotval : w ∉ vals st.mats := I.free_notin_vals V hwfree
  have hwjval : wj ∈ vals st.mats := mem_vals_of_dget hm
  have hwwj : w ≠ wj := fun e => hwnotval (e ▸ hwjval)
  obtain ⟨hdone1, hdone2⟩ := done_dset I hwK hrem
  refine ⟨?_, suffix_dset I hrem, ?_, ?_, I.matsKeysNodup, I.matsKeysMem, ?_, ?_, ?_,
    hdone1, hdone2⟩
  · rw [keys_dset_of_mem _ _ _ hwKst]
    exact I.keysEq
  · intro x hx
    rcases List.mem_append.mp hx with h | h
    · exact I.freeMem x (by rw [hfree]; exact List.mem_cons_of_mem _ h)
    · simp at h
      subst h
      exact hwK
  · have hFM := I.freeMatched
    rw [hfree] at hFM
    refine (List.perm_iff_count.mpr ?_).trans hFM
    intro x
    by_cases hx : x = w <;>
      simp [List.count_append, List.count_cons, hx] <;> omega
  · exact proposedMatched_step I hrem _ (fun x hx => hx) hmK
  · intro m2 w2 h2
    obtain ⟨full2, rem2, pre2, hf2, hr2, he2⟩ := I.lastProposal m2 w2 h2
    have hw2 : w2 ≠ w := by
      intro e
      subst e
      exact hwnotval (mem_vals_of_dget h2)
    exact ⟨full2, rem2, pre2, hf2, by rw [dget_dset_ne _ _ _ _ hw2]; exact hr2, he2⟩
  · intro m2 w2 h2 w3 full3 rem3 hf3 hr3 hne hcons mpl hmpl
    by_cases hw3 : w3 = w
    · subst hw3
      rw [dget_dset_self] at hr3
      injection hr3 with hr3
      subst hr3
      rw [hfull] at hf3
      injection hf3 with hf3
      subst hf3
      rw [consumed_pop hfeq] at hcons
      rcases List.mem_append.mp hcons with h | h
      · have hc : m2 ∈ consumed full (m :: ms) := by
          rw [hfeq, consumed_of_append pre (m :: ms)]
          exact h
        exact I.noWorse m2 w2 h2 w3 full (m :: ms) hfull hrem hne hc mpl hmpl
      · simp at h
        subst h
        rw [hm] at h2
        injection h2 with h2
        subst h2
        rw [hmpl0] at hmpl
        injection hmpl with hmpl
        subst hmpl
        have hmplperm : List.Perm mpl0 (keys W0) :=
          V.mcomplete _ (mem_of_dget hmpl0)
        have hwmpl : w3 ∈ mpl0 := hmplperm.mem_iff.mpr hwK
        have hw2mpl : wj ∈ mpl0 := hmplperm.mem_iff.mpr (I.valMem hwjval)
        have hidx : mpl0.indexOf wj ≠ mpl0.indexOf w3 := fun e =>
          hwwj ((List.indexOf_inj hw2mpl hwmpl).mp e).symm
        omega
    · rw [dget_dset_ne _ _ _ _ hw3] at hr3
      exact I.noWorse m2 w2 h2 w3 full3 rem3 hf3 hr3 hne hcons mpl hmpl

/-! ## Running the loop -/

/-- Main run lemma: from any invariant state with enough fuel, the loop
terminates normally with an empty free queue and an invariant final state. -/
theorem smpLoop_spec {W0 M0 : List (String × List String)}
    (V : ValidInput W0 M0) :
    ∀ fuel st, Inv W0 M0 st → totalPrefLen st.wprefs < fuel →
      ∃ st2, Inv W0 M0 st2 ∧ st2.free = [] ∧
        smpLoop W0.length M0 fuel st = .ok st2.mats := by
  intro fuel
  induction fuel with
  | zero =>
    intro st _ h
    omega
  | succ fuel ih =>
    intro st I hfuel
    rcases hfree : st.free with _ | ⟨w, rest⟩
    · refine ⟨st, I, hfree, ?_⟩
      rw [smpLoop, hfree]
    · have hwfree : w ∈ st.free := by
        rw [hfree]
        exact List.mem_cons_self w rest
      have hwK : w ∈ keys W0 := I.freeMem w hwfree
      have hdlt : st.done.length < W0.length := by
        by_contra hge
        exact done_exit_empty_free V I hwfree (by omega)
      obtain ⟨rem, hrem⟩ := dget_isSome_of_mem st.wprefs w (I.keysEq ▸ hwK)
      rcases hremc : rem with _ | ⟨m, ms⟩
      · exact absurd (hremc ▸ rfl) (free_rem_ne_nil V I hwfree (hremc ▸ hrem))
      subst hremc
      have htot := totalPrefLen_dset hrem
      rcases hmm : dget st.mats m with _ | wj
      · -- accept branch
        have I2 := inv_accept V I hfree hrem hmm
        obtain ⟨st2, hI2, hf2, hrun⟩ := ih _ I2 (by simp only []; omega)
        refine ⟨st2, hI2, hf2, ?_⟩
        rw [smpLoop, hfree]
        simp only [if_pos hdlt, hrem, hmm]
        exact hrun
      · -- proposee is already matched: compare ranks
        have hmK : m ∈ keys st.mats := mem_keys_of_dget hmm
        obtain ⟨mpl, hmpl⟩ := dget_isSome_of_mem M0 m (I.matsKeysMem m hmK)
        have hmplperm : List.Perm mpl (keys W0) := V.mcomplete _ (mem_of_dget hmpl)
        have hwmpl : w ∈ mpl := hmplperm.mem_iff.mpr hwK
        have hwjmpl : wj ∈ mpl :=
          hmplperm.mem_iff.mpr (I.valMem (mem_vals_of_dget hmm))
        have hidxw := idxOf_of_mem mpl w hwmpl
        have hidxwj := idxOf_of_mem mpl wj hwjmpl
        by_cases hlt : mpl.indexOf w < mpl.indexOf wj
        · -- jilt branch
          have I2 := inv_jilt V I hfree hrem hmm hmpl hlt
          obtain ⟨st2, hI2, hf2, hrun⟩ := ih _ I2 (by simp only []; omega)
          refine ⟨st2, hI2, hf2, ?_⟩
          rw [smpLoop, hfree]
          simp only [if_pos hdlt, hrem, hmm, hmpl, hidxw, hidxwj, if_pos hlt]
          exact hrun
        · -- reject branch
          have I2 := inv_reject V I hfree hrem hmm hmpl (by omega)
          obtain ⟨st2, hI2, hf2, hrun⟩ := ih _ I2 (by simp only []; omega)
          refine ⟨st2, hI2, hf2, ?_⟩
          rw [smpLoop, hfree]
          simp only [if_pos hdlt, hrem, hmm, hmpl, hidxw, hidxwj, if_neg hlt]
          exact hrun

/-- At a final state (empty free queue) the match dict is a bijection:
its keys are a permutation of the men, its values one of the women. -/
theorem final_bijection {W0 M0 : List (String × List String)} {st : SmpState}
    (V : ValidInput W0 M0) (I : Inv W0 M0 st) (hfree : st.free = []) :
    List.Perm (keys st.mats) (keys M0) ∧ List.Perm (vals st.mats) (keys W0) := by
  have hvals : List.Perm (vals st.mats) (keys W0) := by
    have := I.freeMatched
    rw [hfree] at this
    simpa using this
  refine ⟨?_, hvals⟩
  have h1 : (vals st.mats).length = (keys st.mats).length := by
    simp [vals, keys]
  have h2 := hvals.length_eq
  have hsp := I.matsKeysNodup.subperm I.matsKeysMem
  exact hsp.perm_of_length_le (by have := V.sizes; omega)

/-- Master theorem for `smp.solve` on valid inputs: for every proposal order
the loop runs to completion and returns the final match dict of an
invariant-satisfying state with an empty free queue. -/
theorem smpSolve_master {W0 M0 : List (String × List String)} {free0 : List String}
    (V : ValidInput W0 M0) (hperm : List.Perm free0 (keys W0)) :
    ∃ st2, Inv W0 M0 st2 ∧ st2.free = [] ∧
      smpSolve W0 M0 free0 = .ok st2.mats := by
  have hval := V.validate
  unfold smpSolve
  rw [if_pos hval]
  exact smpLoop_spec V _ _ (inv_init hperm) (by simp only []; omega)

/-! ## Stability -/

/-- A blocking pair for the man-keyed match dict `ms` with respect to women's
preferences `W0` and men's preferences `M0`: woman `w` and man `m` are
matched to other partners, yet `w` ranks `m` strictly better than her partner
`mstar` and `m` ranks `w` strictly better than his partner `w2`.  (The
redundant membership bounds keep the proposition decidable.) -/
def Blocking (W0 M0 : List (String × List String)) (ms : List (String × String))
    (w m : String) : Prop :=
  ∃ mstar ∈ keys ms, ∃ w2 ∈ vals ms,
    ∃ wpl ∈ W0.map Prod.snd, ∃ mpl ∈ M0.map Prod.snd,
      dget ms mstar = some w ∧ dget ms m = some w2 ∧ mstar ≠ m ∧ w2 ≠ w ∧
      dget W0 w = some wpl ∧ dget M0 m = some mpl ∧
      wpl.indexOf m < wpl.indexOf mstar ∧ mpl.indexOf w < mpl.indexOf w2

instance (W0 M0 : List (String × List String)) (ms : List (String × String))
    (w m : String) : Decidable (Blocking W0 M0 ms w m) := by
  unfold Blocking
  infer_instance

/-- At a final state the produced matching admits no blocking pair. -/
theorem final_stable {W0 M0 : List (String × List String)} {st : SmpState}
    (V : ValidInput W0 M0) (I : Inv W0 M0 st) :
    ∀ w m, ¬ Blocking W0 M0 st.mats w m := by
  rintro w m ⟨mstar, hmstarK, w2, hw2v, wpl, hwplv, mpl, hmplv,
    hms, hmw2, hne1, hne2, hwpl, hmpl, hwlt, hmlt⟩
  obtain ⟨full, rem, pre, hfull, hrem, heq⟩ := I.lastProposal mstar w hms
  rw [hwpl] at hfull
  injection hfull with e
  subst e
  have hwplperm : List.Perm wpl (keys M0) := V.wcomplete _ (mem_of_dget hwpl)
  have hnodup : wpl.Nodup := hwplperm.nodup_iff.mpr V.mnodup
  have hstarpre : mstar ∉ pre := by
    intro hp
    rw [heq] at hnodup
    rcases List.nodup_append.mp hnodup with ⟨_, _, hdisj⟩
    exact hdisj hp (by simp)
  have hidxstar : wpl.indexOf mstar = pre.length := by
    rw [heq, List.indexOf_append_of_not_mem hstarpre, List.indexOf_cons_self]
    omega
  have hmpre : m ∈ pre := by
    by_contra hnm
    rw [hidxstar, heq, List.indexOf_append_of_not_mem hnm] at hwlt
    omega
  have hconsm : m ∈ consumed wpl rem := by
    rw [consumed_pop heq]
    exact List.mem_append_left _ hmpre
  have := I.noWorse m w2 hmw2 w wpl rem hwpl hrem (Ne.symm hne2) hconsm mpl hmpl
  omega

/-- The loop itself never raises the validation error: that exception can
only come from `validate_input`, which runs before any state is built. -/
theorem smpLoop_ne_invalid (n : Nat) (mprefs : List (String × List String)) :
    ∀ fuel st, smpLoop n mprefs fuel st ≠ .invalidInput := by
  intro fuel
  induction fuel with
  | zero =>
    intro st
    obtain ⟨wp, fr, dn, mt⟩ := st
    rcases fr with _ | ⟨w, rest⟩ <;> rw [smpLoop]
    · simp
    · dsimp only
      split <;> simp
  | succ fuel ih =>
    intro st
    obtain ⟨wp, fr, dn, mt⟩ := st
    rcases fr with _ | ⟨w, rest⟩ <;> rw [smpLoop]
    · simp
    · dsimp only
      split
      · rcases hrem : dget wp w with _ | rem
        · simp
        · rcases rem with _ | ⟨m, ms⟩
          · simp
          · dsimp only
            rcases hmm : dget mt m with _ | wj
            · exact ih _
            · dsimp only
              rcases hmpl : dget mprefs m with _ | mpl
              · simp
              · dsimp only
                rcases h1 : idxOf mpl w with _ | i <;>
                  rcases h2 : idxOf mpl wj with _ | i' <;> dsimp only
                · simp
                · simp
                · simp
                · split
                  · exact ih _
                  · exact ih _
      · simp

/-! ## Claim theorems: the Deferred Acceptance Solver -/

/-- **C1**: for every pair of preference mappings passing validation
(equal-size key sets, complete duplicate-free lists) and every randomized
proposal order, the match returned by `smp.solve` is stable with respect to
the input preference lists: no woman `w` and man `m` form a blocking pair. -/
theorem C1_smp_solve_stable {W0 M0 : List (String × List String)}
    {free0 : List String} (V : ValidInput W0 M0)
    (hperm : List.Perm free0 (keys W0)) {ms : List (String × String)}
    (hok : smpSolve W0 M0 free0 = .ok ms) :
    ∀ w m, ¬ Blocking W0 M0 ms w m := by
  obtain ⟨st2, I2, hf2, hrun⟩ := smpSolve_master V hperm
  rw [hok] at hrun
  injection hrun with e
  subst e
  exact final_stable V I2

/-- **C2**: for every validated input of group size `n` and every proposal
order, `smp.solve` returns a dict that is a bijection: its keys are a
permutation of the men, its values a permutation of the women (so no
proposer appears twice). -/
theorem C2_smp_solve_bijection {W0 M0 : List (String × List String)}
    {free0 : List String} (V : ValidInput W0 M0)
    (hperm : List.Perm free0 (keys W0)) :
    ∃ ms, smpSolve W0 M0 free0 = .ok ms ∧
      List.Perm (keys ms) (keys M0) ∧ List.Perm (vals ms) (keys W0) := by
  obtain ⟨st2, I2, hf2, hrun⟩ := smpSolve_master V hperm
  obtain ⟨h1, h2⟩ := final_bijection V I2 hf2
  exact ⟨st2.mats, hrun, h1, h2⟩

/-- **C5**: on validated inputs the loop terminates — the fuel bound
`totalPrefLen + 1` is never exhausted — and it ends with every proposer
matched (hence every proposer is matched or exhausted, as the spec puts
it). -/
theorem C5_smp_solve_terminates {W0 M0 : List (String × List String)}
    {free0 : List String} (V : ValidInput W0 M0)
    (hperm : List.Perm free0 (keys W0)) :
    smpSolve W0 M0 free0 ≠ .outOfFuel ∧
      ∃ ms, smpSolve W0 M0 free0 = .ok ms ∧ ∀ w ∈ keys W0, w ∈ vals ms := by
  obtain ⟨st2, I2, hf2, hrun⟩ := smpSolve_master V hperm
  have hvals := (final_bijection V I2 hf2).2
  refine ⟨by rw [hrun]; simp, st2.mats, hrun, ?_⟩
  intro w hw
  exact hvals.mem_iff.mpr hw

/-- **C10**: on validated inputs the runtime-error branches of the loop body
(`pop` from an empty list, failing `list.index`, `KeyError`) are
unreachable: `smp.solve` never raises past validation. -/
theorem C10_smp_solve_no_runtime_error {W0 M0 : List (String × List String)}
    {free0 : List String} (V : ValidInput W0 M0)
    (hperm : List.Perm free0 (keys W0)) :
    smpSolve W0 M0 free0 ≠ .runtimeError := by
  obtain ⟨st2, I2, hf2, hrun⟩ := smpSolve_master V hperm
  rw [hrun]
  simp

/-! ## Concrete instances from the spec's examples -/

/-- The spec's two-agent example: proposer (women's) preferences. -/
def exW : List (String × List String) := [("A", ["X", "Y"]), ("B", ["Y", "X"])]

/-- The spec's two-agent example: receiver (men's) preferences. -/
def exM : List (String × List String) := [("X", ["B", "A"]), ("Y", ["A", "B"])]

theorem exValid : ValidInput exW exM :=
  ⟨by decide, by decide, by decide, by decide, by decide⟩

theorem C1_smp_solve_stable_witness :
    ¬ Blocking exW exM [("X", "A"), ("Y", "B")] "A" "Y" :=
  @C1_smp_solve_stable exW exM ["A", "B"] exValid (by decide)
    [("X", "A"), ("Y", "B")] (by decide) "A" "Y"

theorem C2_smp_solve_bijection_witness :
    ∃ ms, smpSolve exW exM ["A", "B"] = .ok ms ∧
      List.Perm (keys ms) (keys exM) ∧ List.Perm (vals ms) (keys exW) :=
  @C2_smp_solve_bijection exW exM ["A", "B"] exValid (by decide)

theorem C5_smp_solve_terminates_witness :
    smpSolve exW exM ["A", "B"] ≠ .outOfFuel ∧
      ∃ ms, smpSolve exW exM ["A", "B"] = .ok ms ∧ "A" ∈ vals ms := by
  obtain ⟨h1, ms, h2, h3⟩ :=
    @C5_smp_solve_terminates exW exM ["A", "B"] exValid (by decide)
  exact ⟨h1, ms, h2, h3 "A" (by decide)⟩

theorem C10_smp_solve_no_runtime_error_witness :
    smpSolve exW exM ["A", "B"] ≠ .runtimeError :=
  C10_smp_solve_no_runtime_error exValid (by decide)

/-! ## Claim C3: the spec's two-agent example -/

theorem perm_pair {l : List String} {a b : String} (h : List.Perm l [a, b]) :
    l = [a, b] ∨ l = [b, a] := by
  have hlen := h.length_eq
  simp at hlen
  rcases l with _ | ⟨x, _ | ⟨y, _ | ⟨z, t⟩⟩⟩ <;> simp at hlen
  have hx : x ∈ [a, b] := h.subset (by simp)
  rcases (by simpa using hx : x = a ∨ x = b) with rfl | rfl
  · left
    rw [List.singleton_perm_singleton.mp h.cons_inv]
  · right
    have h2 : List.Perm [y] [a] := (h.trans (List.Perm.swap x a [])).cons_inv
    rw [List.singleton_perm_singleton.mp h2]

/-- **C3 (counterexample)**: on the spec's two-agent instance, with proposal
order `[A, B]`, the Deferred Acceptance Solver returns the proposer-optimal
matching `{X: A, Y: B}` (proposer-keyed `{A: X, B: Y}`), not the claimed
`{A: Y, B: X}`; moreover the claimed matching `{X: B, Y: A}` is itself stable,
so the instance has two stable matchings, not a unique one. -/
theorem C3_counterexample :
    smpSolve exW exM ["A", "B"] = .ok [("X", "A"), ("Y", "B")] ∧
      dget [("X", "A"), ("Y", "B")] "Y" = some "B" ∧
      ¬ Blocking exW exM [("X", "B"), ("Y", "A")] "A" "X" ∧
      ¬ Blocking exW exM [("X", "B"), ("Y", "A")] "A" "Y" ∧
      ¬ Blocking exW exM [("X", "B"), ("Y", "A")] "B" "X" ∧
      ¬ Blocking exW exM [("X", "B"), ("Y", "A")] "B" "Y" := by
  decide

/-- **C3 (amended)**: on the two-agent instance with proposer preferences
`{A: [X,Y], B: [Y,X]}` and receiver preferences `{X: [B,A], Y: [A,B]}`, the
Deferred Acceptance Solver returns, for every randomized proposal order, the
proposer-optimal stable matching `{A: X, B: Y}` (receiver-keyed
`{X: A, Y: B}`). -/
theorem C3_smp_example {free0 : List String}
    (hperm : List.Perm free0 (keys exW)) :
    ∃ ms, smpSolve exW exM free0 = .ok ms ∧
      dget ms "X" = some "A" ∧ dget ms "Y" = some "B" := by
  rcases perm_pair hperm with rfl | rfl
  · exact ⟨[("X", "A"), ("Y", "B")], by decide, by decide, by decide⟩
  · exact ⟨[("Y", "B"), ("X", "A")], by decide, by decide, by decide⟩

theorem C3_smp_example_witness :
    ∃ ms, smpSolve exW exM ["B", "A"] = .ok ms ∧
      dget ms "X" = some "A" ∧ dget ms "Y" = some "B" :=
  C3_smp_example (by decide)

/-! ## Claim C4: validation behaviour -/

/-- Modelled on the claim's notion of a complete list: "does not exactly
equal the full opposite-side identifier set, with no duplicates and no
omissions". -/
def strictComplete (prefs choices : List String) : Prop :=
  prefs.Nodup ∧ (∀ x ∈ prefs, x ∈ choices) ∧ ∀ x ∈ choices, x ∈ prefs

instance (prefs choices : List String) : Decidable (strictComplete prefs choices) := by
  unfold strictComplete
  infer_instance

/-- A women's preference dict whose first list `[X, X, Y]` carries a
duplicate yet covers the full set of men. -/
def wDup : List (String × List String) := [("A", ["X", "X", "Y"]), ("B", ["X", "Y"])]

/-- The men's dict opposite `wDup`. -/
def mEx2 : List (String × List String) := [("X", ["A", "B"]), ("Y", ["A", "B"])]

/-- **C4 (counterexample)**: a preference list with a duplicate entry is NOT
rejected when its element set is still the full opposite-side set —
`validate_input` passes it and `smp.solve` returns a match normally, contrary
to the claim that such a list raises. -/
theorem C4_counterexample :
    validateInput mEx2 wDup ∧
      ¬ strictComplete ["X", "X", "Y"] (keys mEx2) ∧
      smpSolve wDup mEx2 ["A", "B"] = .ok [("X", "A"), ("Y", "B")] := by
  decide

/-- **C4 (amended)**: `smp.solve` raises the validation error if and only if
the (distinct) key counts of the two sides differ or some preference list's
element set is not exactly the opposite side's key set — duplicates inside a
covering list are not rejected; the check runs before any matching state is
built (a failing validation short-circuits the whole solve). -/
theorem C4_validation_iff (wp mp : List (String × List String))
    (free0 : List String) :
    smpSolve wp mp free0 = .invalidInput ↔
      ¬ ((keys wp).dedup.length = (keys mp).dedup.length ∧
        validatePrefs wp (keys mp) ∧ validatePrefs mp (keys wp)) := by
  unfold smpSolve
  by_cases h : validateInput mp wp
  · rw [if_pos h]
    constructor
    · intro habs
      exact absurd habs (smpLoop_ne_invalid _ _ _ _)
    · intro habs
      exact absurd h habs
  · rw [if_neg h]
    exact ⟨fun _ hc => h hc, fun _ => rfl⟩

/-! ## Preference completion (`src/match/utils.py`) -/

/-- `list(set(choices) - set(prefs))`: the not-yet-ranked choices.  `choices`
is a Python set, modelled as a duplicate-free list; the order is irrelevant
because the result is immediately permuted. -/
def remainingChoices (prefs choices : List String) : List String :=
  choices.filter fun c => decide (c ∉ prefs)

/-- `complete_prefs(prefs, choices)`, with `np.random.permutation` injected
as `sigma`: append a permutation of the remaining choices to the given
prefix. -/
def complete_prefs (sigma : List String → List String)
    (prefs choices : List String) : List String :=
  prefs ++ sigma (remainingChoices prefs choices)

theorem complete_prefs_mem (sigma : List String → List String)
    (prefs choices : List String) (hsub : ∀ x ∈ prefs, x ∈ choices)
    (hsigma : List.Perm (sigma (remainingChoices prefs choices))
      (remainingChoices prefs choices)) :
    ∀ x, x ∈ complete_prefs sigma prefs choices ↔ x ∈ choices := by
  intro x
  unfold complete_prefs
  rw [List.mem_append, hsigma.mem_iff]
  unfold remainingChoices
  rw [List.mem_filter]
  constructor
  · rintro (h | h)
    · exact hsub x h
    · exact h.1
  · intro h
    by_cases hx : x ∈ prefs
    · exact Or.inl hx
    · exact Or.inr ⟨h, by simpa using hx⟩

theorem complete_prefs_nodup (sigma : List String → List String)
    (prefs choices : List String) (hnd : prefs.Nodup) (hcnd : choices.Nodup)
    (hsigma : List.Perm (sigma (remainingChoices prefs choices))
      (remainingChoices prefs choices)) :
    (complete_prefs sigma prefs choices).Nodup := by
  unfold complete_prefs
  rw [List.nodup_append]
  refine ⟨hnd, hsigma.nodup_iff.mpr (hcnd.filter _), ?_⟩
  intro x hx hx'
  have := (List.mem_filter.mp (hsigma.subset hx')).2
  simp at this
  exact this hx

theorem complete_prefs_perm (sigma : List String → List String)
    (prefs choices : List String) (hnd : prefs.Nodup) (hcnd : choices.Nodup)
    (hsub : ∀ x ∈ prefs, x ∈ choices)
    (hsigma : List.Perm (sigma (remainingChoices prefs choices))
      (remainingChoices prefs choices)) :
    List.Perm (complete_prefs sigma prefs choices) choices := by
  have hmem := complete_prefs_mem sigma prefs choices hsub hsigma
  have h1 := (complete_prefs_nodup sigma prefs choices hnd hcnd hsigma).subperm
    fun x hx => (hmem x).mp hx
  have h2 := hcnd.subperm fun x hx => (hmem x).mpr hx
  exact h1.antisymm h2

/-- **C8**: for every duplicate-free preference list contained in the full
opposite-side set and every injected permutation of the missing elements,
`complete_prefs` returns a list whose element set is exactly the full set and
whose first `len(prefs)` entries are the supplied list in its original
order. -/
theorem C8_complete_prefs (sigma : List String → List String)
    (prefs choices : List String) (hnd : prefs.Nodup)
    (hsub : ∀ x ∈ prefs, x ∈ choices)
    (hsigma : List.Perm (sigma (remainingChoices prefs choices))
      (remainingChoices prefs choices)) :
    (∀ x, x ∈ complete_prefs sigma prefs choices ↔ x ∈ choices) ∧
      (complete_prefs sigma prefs choices).take prefs.length = prefs :=
  ⟨complete_prefs_mem sigma prefs choices hsub hsigma,
    List.take_left prefs _⟩

theorem C8_complete_prefs_witness :
    ("Z" ∈ complete_prefs List.reverse ["X"] ["X", "Y", "Z"] ↔
      "Z" ∈ ["X", "Y", "Z"]) ∧
      (complete_prefs List.reverse ["X"] ["X", "Y", "Z"]).take 1 = ["X"] := by
  have h := C8_complete_prefs List.reverse ["X"] ["X", "Y", "Z"]
    (by decide) (by decide) (by decide)
  exact ⟨h.1 "Z", h.2⟩

/-! ## Scoring (`src/match/score.py`)

Scores are modelled over `ℚ`.  The transcendental `np.exp` is an external
floating-point routine; it is injected as an abstract function `E`, so every
theorem holds for any exponential implementation. -/

def one_zero (mtc : String) (prefs : List String) : ℚ :=
  if mtc ∈ prefs then 1 else 0

def frac (mtc : String) (prefs : List String) : ℚ :=
  if mtc ∈ prefs then ((prefs.length : ℚ) - prefs.indexOf mtc) / prefs.length
  else 0

def boost (base_score : ℚ) (b : ℚ) : ℚ :=
  if base_score > 0 then base_score + b else 0

def identity (base_score : ℚ) : ℚ :=
  base_score

/-- `exponential(base_score) = (np.exp(base_score) - 1) / (np.exp(1) - 1)`,
with `np.exp` injected as `E`. -/
def exponential (E : ℚ → ℚ) (base_score : ℚ) : ℚ :=
  (E base_score - 1) / (E 1 - 1)

def score (mtc : String) (prefs : List String)
    (score_fn : String → List String → ℚ) (warp_fn : ℚ → ℚ) (b : ℚ) : ℚ :=
  boost (warp_fn (score_fn mtc prefs)) b

/-- `score_exponential`: the assignment path's fixed default composite —
base `frac` (graded), warp `exponential`, boost `1`. -/
def score_exponential (E : ℚ → ℚ) (mtc : String) (prefs : List String) : ℚ :=
  score mtc prefs frac (exponential E) 1

/-! ## The Weighted Assignment Solver (`src/match/hungarian.py`) -/

/-- `_build_score_matrix(agents, tasks, prefs, score_fn)` as a total function
on indices.  The Python double loop writes entry
`(agents.index(agent), tasks.index(task))` exactly once for every pair when
`agents` and `tasks` are duplicate-free, producing exactly this matrix; only
indices below `len(agents)` are ever read. -/
def buildScoreMatrix (agents tasks : List String)
    (prefs : List (String × List String))
    (score_fn : String → List String → ℚ) : Nat → Nat → ℚ :=
  fun i j => score_fn (tasks.getD j "") ((dget prefs (agents.getD i "")).getD [])

inductive HungarianErr where
  | assertionError
  | indexError
deriving DecidableEq

deriving instance DecidableEq for Except

/-- `hungarian.solve(w_prefs, m_prefs, score_fn, weight)`.  The external
`scipy.optimize.linear_sum_assignment` call is a black box: the index pairs
`zip(row_ind, col_ind)` it returns are injected as `pairing` (the cost-matrix
conversion `max - score` only feeds that black box).  The `assert` in
`_build_score_matrix` is `assertionError`; out-of-range indices from the
oracle would raise `indexError` when decoding `women[r]` / `men[c]`. -/
def hungarianSolve (wprefs mprefs : List (String × List String))
    (score_fn : String → List String → ℚ) (weight : ℚ)
    (pairing : List (Nat × Nat)) :
    Except HungarianErr (List (String × String) × ℚ) :=
  let women := keys wprefs
  let men := keys mprefs
  if women.length = men.length then
    let wS := buildScoreMatrix women men wprefs score_fn
    let mS := buildScoreMatrix men women mprefs score_fn
    let S := fun i j => weight * wS i j + (1 - weight) * mS j i
    if pairing.all fun rc =>
        decide (rc.1 < women.length) && decide (rc.2 < men.length) then
      .ok (pairing.foldl
        (fun acc rc =>
          (dset acc.1 (women.getD rc.1 "") (men.getD rc.2 ""),
            acc.2 + S rc.1 rc.2))
        ([], 0))
    else .error .indexError
  else .error .assertionError

/-- Unrolling the result-building loop of `hungarian.solve`: when the rows
are distinct and in range, the dict insertions never collide, so the final
dict lists the decoded pairs in order and the final score is the sum of the
matrix entries along the pairing. -/
theorem hungarian_fold (women men : List String) (S : Nat → Nat → ℚ)
    (hwnd : women.Nodup) :
    ∀ (pairing : List (Nat × Nat)) (acc : List (String × String)) (t : ℚ),
      (∀ rc ∈ pairing, rc.1 < women.length) →
      (pairing.map Prod.fst).Nodup →
      (∀ rc ∈ pairing, women.getD rc.1 "" ∉ keys acc) →
      pairing.foldl
        (fun acc rc =>
          (dset acc.1 (women.getD rc.1 "") (men.getD rc.2 ""),
            acc.2 + S rc.1 rc.2)) (acc, t)
        = (acc ++ pairing.map
            (fun rc => (women.getD rc.1 "", men.getD rc.2 "")),
          t + (pairing.map fun rc => S rc.1 rc.2).sum) := by
  intro pairing
  induction pairing with
  | nil =>
    intro acc t _ _ _
    simp
  | cons rc rest ih =>
    intro acc t hrange hrows hfresh
    have hset : dset acc (women.getD rc.1 "") (men.getD rc.2 "")
        = acc ++ [(women.getD rc.1 "", men.getD rc.2 "")] :=
      dset_of_not_mem _ _ _ (hfresh rc (by simp))
    have hfresh' : ∀ rc' ∈ rest, women.getD rc'.1 "" ∉
        keys (acc ++ [(women.getD rc.1 "", men.getD rc.2 "")]) := by
      intro rc' hrc'
      have hne : rc'.1 ≠ rc.1 := by
        intro e
        rcases List.nodup_cons.mp hrows with ⟨hnotin, _⟩
        exact hnotin (e ▸ List.mem_map_of_mem Prod.fst hrc')
      have hi : rc.1 < women.length := hrange rc (by simp)
      have hi' : rc'.1 < women.length := hrange rc' (List.mem_cons_of_mem _ hrc')
      have hgetne : women.getD rc'.1 "" ≠ women.getD rc.1 "" := by
        rw [List.getD_eq_getElem women "" hi, List.getD_eq_getElem women "" hi']
        intro e
        exact hne ((hwnd.getElem_inj_iff).mp e)
      intro hmem
      unfold keys at hmem
      rw [List.map_append] at hmem
      rcases List.mem_append.mp hmem with h | h
      · exact hfresh rc' (List.mem_cons_of_mem _ hrc') h
      · exact hgetne (List.mem_singleton.mp h)
    have hrest := ih (acc ++ [(women.getD rc.1 "", men.getD rc.2 "")])
      (t + S rc.1 rc.2)
      (fun rc' h => hrange rc' (List.mem_cons_of_mem _ h))
      (List.nodup_cons.mp hrows).2 hfresh'
    rw [List.foldl_cons, hset, hrest, Prod.mk.injEq]
    refine ⟨by simp, ?_⟩
    simp only [List.map_cons, List.sum_cons]
    ring

/-- **C6**: for complete equal-size preference mappings and any weight in
`[0,1]`, the total returned by the Weighted Assignment Solver equals the sum,
over the returned pairing, of `weight` times the default composite score
(graded base, exponential warp, boost 1) of the receiver against the
proposer's list plus `1 - weight` times that composite of the proposer
against the receiver's list — for every index pairing the external optimal
assignment routine can return (in-range, distinct rows). -/
theorem C6_hungarian_total (E : ℚ → ℚ) (wp mp : List (String × List String))
    (weight : ℚ) (pairing : List (Nat × Nat))
    (hwnd : (keys wp).Nodup) (hmnd : (keys mp).Nodup)
    (hw0 : 0 ≤ weight) (hw1 : weight ≤ 1)
    (hcompw : ∀ p ∈ wp, List.Perm p.2 (keys mp))
    (hcompm : ∀ p ∈ mp, List.Perm p.2 (keys wp))
    (hrange : ∀ rc ∈ pairing, rc.1 < (keys wp).length ∧ rc.2 < (keys mp).length)
    (hrows : (pairing.map Prod.fst).Nodup)
    {ms : List (String × String)} {total : ℚ}
    (hok : hungarianSolve wp mp (score_exponential E) weight pairing
      = .ok (ms, total)) :
    total = (ms.map fun p =>
      weight * score_exponential E p.2 ((dget wp p.1).getD []) +
        (1 - weight) * score_exponential E p.1 ((dget mp p.2).getD [])).sum := by
  unfold hungarianSolve at hok
  have hlen : (keys wp).length = (keys mp).length := by
    by_contra hne
    rw [if_neg hne] at hok
    simp at hok
  rw [if_pos hlen] at hok
  have hall : pairing.all (fun rc =>
      decide (rc.1 < (keys wp).length) && decide (rc.2 < (keys mp).length))
      = true := by
    rw [List.all_eq_true]
    intro rc hrc
    have := hrange rc hrc
    simp [this.1, this.2]
  rw [if_pos hall] at hok
  injection hok with hok
  have hfold := hungarian_fold (keys wp) (keys mp)
    (fun i j =>
      weight * buildScoreMatrix (keys wp) (keys mp) wp (score_exponential E) i j
        + (1 - weight) *
          buildScoreMatrix (keys mp) (keys wp) mp (score_exponential E) j i)
    hwnd pairing [] 0 (fun rc h => (hrange rc h).1) hrows (by simp [keys])
  have h2 := hok.symm.trans hfold
  rw [Prod.mk.injEq] at h2
  obtain ⟨hms, htot⟩ := h2
  subst hms
  rw [htot]
  simp only [List.nil_append, List.map_map, zero_add]
  rfl

theorem C6_hungarian_total_witness :
    (2 : ℚ) = ([(("A" : String), ("X" : String))].map fun p =>
      (1 / 2 : ℚ) * score_exponential (fun q => q + 1) p.2
          ((dget [("A", ["X"])] p.1).getD []) +
        (1 - 1 / 2) * score_exponential (fun q => q + 1) p.1
          ((dget [("X", ["A"])] p.2).getD [])).sum :=
  C6_hungarian_total (fun q => q + 1) [("A", ["X"])] [("X", ["A"])] (1 / 2)
    [(0, 0)] (by decide) (by decide) (by norm_num) (by norm_num) (by decide)
    (by decide) (by decide) (by decide) (by with_unfolding_all rfl)

/-- A women's dict with incomplete preference lists. -/
def wInc : List (String × List String) := [("A", []), ("B", ["X"])]

/-- A men's dict with incomplete preference lists, same size as `wInc`. -/
def mInc : List (String × List String) := [("X", ["A"]), ("Y", [])]

/-- **C7 (counterexample)**: incomplete (even empty) preference lists
reaching `hungarian.solve` do NOT raise: with equal-size mappings the solver
scores the malformed lists (absent matches score 0) and returns a result.
Only the equal-size `assert` can fail. -/
theorem C7_counterexample :
    ¬ strictComplete [] (keys mInc) ∧
      hungarianSolve wInc mInc (score_exponential fun q => q + 1) (1 / 2)
          [(0, 0), (1, 1)]
        = .ok ([("A", "X"), ("B", "Y")], 1) := by
  constructor
  · decide
  · with_unfolding_all rfl

/-- **C7 (amended)**: `hungarian.solve` raises only the `assert` in
`_build_score_matrix`, exactly when the two key lists have different lengths;
this happens before any matrix or matching state is built.  Incomplete or
malformed preference lists are not rejected — the scoring functions are
total over them. -/
theorem C7_hungarian_assert_iff (wp mp : List (String × List String))
    (score_fn : String → List String → ℚ) (weight : ℚ)
    (pairing : List (Nat × Nat)) :
    hungarianSolve wp mp score_fn weight pairing = .error .assertionError ↔
      (keys wp).length ≠ (keys mp).length := by
  unfold hungarianSolve
  by_cases h : (keys wp).length = (keys mp).length
  · rw [if_pos h]
    constructor
    · intro habs
      exfalso
      split at habs <;> simp at habs
    · intro habs
      exact absurd h habs
  · rw [if_neg h]
    exact ⟨fun _ => h, fun _ => rfl⟩

/-! ## The Monte-Carlo Trial Controller (`run_smp` in `src/match/main.py`)

The per-trial randomness — the completion permutations of `complete` and the
proposal order of `smp.solve` — is injected as one `TrialRand` per trial.
The write-only `results` history is omitted: no claim concerns it. -/

/-- `complete(w_prefs, m_prefs)` from `src/match/utils.py`: complete every
list on both sides against the opposite side's key set, with the random
permutation source injected per key. -/
def completeDicts (sw sm : String → List String → List String)
    (wprefs mprefs : List (String × List String)) :
    List (String × List String) × List (String × List String) :=
  (wprefs.map fun p => (p.1, complete_prefs (sw p.1) p.2 (keys mprefs)),
    mprefs.map fun p => (p.1, complete_prefs (sm p.1) p.2 (keys wprefs)))

/-- `score_assignment(matches, prefs, score_fn, warp_fn, b)` from
`src/match/score.py`: per-agent composite scores and their sum.  (`prefs[x]`
is total here via `getD`; the controller only calls it with keys of
`prefs`.) -/
def score_assignment (mts : List (String × String))
    (prefs : List (String × List String))
    (score_fn : String → List String → ℚ) (warp_fn : ℚ → ℚ) (b : ℚ) :
    List (String × ℚ) × ℚ :=
  let scores := mts.map fun p =>
    (p.1, score p.2 ((dget prefs p.1).getD []) score_fn warp_fn b)
  (scores, (scores.map Prod.snd).sum)

/-- `{reverse_matches[m]: m for m in reverse_matches}`. -/
def invertMatches (rev : List (String × String)) : List (String × String) :=
  rev.foldl (fun acc p => dset acc p.2 p.1) []

/-- The blacklist filter: `w in blacklist and matches[w] in blacklist[w]`
for some woman `w` of the match. -/
def discarded (mts : List (String × String))
    (blacklist : List (String × List String)) : Bool :=
  mts.any fun p => decide (p.2 ∈ (dget blacklist p.1).getD [])

/-- The randomness consumed by one Monte-Carlo trial. -/
structure TrialRand where
  sw : String → List String → List String
  sm : String → List String → List String
  free0 : List String

inductive RunErr where
  | solverError
  | exhaustion
  | printError
deriving DecidableEq

/-- One iteration of the trial loop: complete, solve, invert, filter, score.
Returns `none` for a discarded trial, the woman-keyed match with its overall
normalized score otherwise. -/
def runTrial (wprefs mprefs blacklist : List (String × List String))
    (score_fn : String → List String → ℚ) (warp_fn : ℚ → ℚ)
    (weight b : ℚ) (r : TrialRand) :
    Except RunErr (Option (List (String × String) × ℚ)) :=
  let c := completeDicts r.sw r.sm wprefs mprefs
  match smpSolve c.1 c.2 r.free0 with
  | .ok rev =>
    let mts := invertMatches rev
    if discarded mts blacklist then .ok none
    else
      let wtot := (score_assignment mts wprefs score_fn warp_fn b).2
      let mtot := (score_assignment rev mprefs score_fn warp_fn b).2
      let overall := (weight * wtot + (1 - weight) * mtot) / wprefs.length
      .ok (some (mts, overall))
  | _ => .error .solverError

/-- The `for i in range(args.n)` loop, carrying `num_discarded` and the
best-so-far match and score (`None` until a trial survives). -/
def runTrialsLoop (wp mp bl : List (String × List String))
    (sf : String → List String → ℚ) (wf : ℚ → ℚ) (weight b : ℚ) :
    List TrialRand → Nat → Option (List (String × String) × ℚ) →
      Except RunErr (Nat × Option (List (String × String) × ℚ))
  | [], nd, best => .ok (nd, best)
  | r :: rs, nd, best =>
    match runTrial wp mp bl sf wf weight b r with
    | .error e => .error e
    | .ok none => runTrialsLoop wp mp bl sf wf weight b rs (nd + 1) best
    | .ok (some (mts, overall)) =>
      let best' :=
        match best with
        | none => (mts, overall)
        | some (bm, bs) => if bs < overall then (mts, overall) else (bm, bs)
      runTrialsLoop wp mp bl sf wf weight b rs nd (some best')

/-- `run_smp`: run all trials, then raise the exhaustion error when every
trial was discarded, otherwise report the best match and score.  Printing a
`None` best score would itself throw (`printError`); we prove that branch
unreachable. -/
def run_smp (wp mp bl : List (String × List String))
    (sf : String → List String → ℚ) (wf : ℚ → ℚ) (weight b : ℚ)
    (rands : List TrialRand) : Except RunErr (List (String × String) × ℚ) :=
  match runTrialsLoop wp mp bl sf wf weight b rands 0 none with
  | .error e => .error e
  | .ok (nd, best) =>
    if nd = rands.length then .error .exhaustion
    else
      match best with
      | some bres => .ok bres
      | none => .error .printError

/-- The number of trials the blacklist filter discards. -/
def discardCount (wp mp bl : List (String × List String))
    (sf : String → List String → ℚ) (wf : ℚ → ℚ) (weight b : ℚ)
    (rands : List TrialRand) : Nat :=
  rands.countP fun r => decide (runTrial wp mp bl sf wf weight b r = .ok none)

/-- Raw (possibly incomplete) input dicts as the preference source contract
delivers them: distinct keys, equal sizes, duplicate-free lists over the
opposite side's identifiers. -/
structure RawValid (wprefs mprefs : List (String × List String)) : Prop where
  wnodup : (keys wprefs).Nodup
  mnodup : (keys mprefs).Nodup
  sizes : (keys wprefs).length = (keys mprefs).length
  wlists : ∀ p ∈ wprefs, p.2.Nodup ∧ ∀ x ∈ p.2, x ∈ keys mprefs
  mlists : ∀ p ∈ mprefs, p.2.Nodup ∧ ∀ x ∈ p.2, x ∈ keys wprefs

/-- A trial's injected randomness is genuine: the proposal order permutes
the women and each injected completion permutes the missing choices. -/
def GoodRand (wprefs mprefs : List (String × List String)) (r : TrialRand) :
    Prop :=
  List.Perm r.free0 (keys wprefs) ∧
    (∀ p ∈ wprefs, List.Perm (r.sw p.1 (remainingChoices p.2 (keys mprefs)))
      (remainingChoices p.2 (keys mprefs))) ∧
    (∀ p ∈ mprefs, List.Perm (r.sm p.1 (remainingChoices p.2 (keys wprefs)))
      (remainingChoices p.2 (keys wprefs)))

theorem keys_map_fst {α β : Type} (l : List (String × α))
    (f : String × α → β) :
    keys (l.map fun p => (p.1, f p)) = keys l := by
  unfold keys
  rw [List.map_map]
  rfl

/-- Completing a raw valid input with genuine randomness yields an input
that is valid for the Deferred Acceptance Solver. -/
theorem completeDicts_valid {wp mp : List (String × List String)}
    (VR : RawValid wp mp) {r : TrialRand} (hr : GoodRand wp mp r) :
    ValidInput (completeDicts r.sw r.sm wp mp).1
      (completeDicts r.sw r.sm wp mp).2 := by
  obtain ⟨hfree, hsw, hsm⟩ := hr
  have hk1 : keys (completeDicts r.sw r.sm wp mp).1 = keys wp :=
    keys_map_fst wp _
  have hk2 : keys (completeDicts r.sw r.sm wp mp).2 = keys mp :=
    keys_map_fst mp _
  refine ⟨?_, ?_, ?_, ?_, ?_⟩
  · rw [hk1]
    exact VR.wnodup
  · rw [hk2]
    exact VR.mnodup
  · rw [hk1, hk2]
    exact VR.sizes
  · intro p hp
    rw [hk2]
    obtain ⟨q, hq, rfl⟩ := List.mem_map.mp hp
    exact complete_prefs_perm (r.sw q.1) q.2 (keys mp) (VR.wlists q hq).1
      VR.mnodup (VR.wlists q hq).2 (hsw q hq)
  · intro p hp
    rw [hk1]
    obtain ⟨q, hq, rfl⟩ := List.mem_map.mp hp
    exact complete_prefs_perm (r.sm q.1) q.2 (keys wp) (VR.mlists q hq).1
      VR.wnodup (VR.mlists q hq).2 (hsm q hq)

/-- On valid inputs with genuine randomness a trial never raises. -/
theorem runTrial_ok {wp mp : List (String × List String)}
    (bl : List (String × List String)) (sf : String → List String → ℚ)
    (wf : ℚ → ℚ) (weight b : ℚ) (VR : RawValid wp mp) {r : TrialRand}
    (hr : GoodRand wp mp r) :
    ∃ v, runTrial wp mp bl sf wf weight b r = .ok v := by
  have V := completeDicts_valid VR hr
  have hperm : List.Perm r.free0 (keys (completeDicts r.sw r.sm wp mp).1) := by
    have hk : keys (completeDicts r.sw r.sm wp mp).1 = keys wp :=
      keys_map_fst wp _
    rw [hk]
    exact hr.1
  obtain ⟨st2, _, _, hrun⟩ := smpSolve_master V hperm
  simp only [runTrial]
  rw [hrun]
  by_cases hd : discarded (invertMatches st2.mats) bl
  · exact ⟨none, by simp [hd]⟩
  · refine ⟨some (invertMatches st2.mats,
      (weight * (score_assignment (invertMatches st2.mats) wp sf wf b).2 +
        (1 - weight) * (score_assignment st2.mats mp sf wf b).2) /
          (wp.length : ℚ)), ?_⟩
    simp [hd]

/-- As long as no trial raises, the loop returns: the discard counter grows
by exactly the number of discarded trials, and a best is recorded exactly
when one was already recorded or some trial survived. -/
theorem runTrialsLoop_spec (wp mp bl : List (String × List String))
    (sf : String → List String → ℚ) (wf : ℚ → ℚ) (weight b : ℚ) :
    ∀ (rands : List TrialRand),
      (∀ r ∈ rands, ∃ v, runTrial wp mp bl sf wf weight b r = .ok v) →
      ∀ nd best, ∃ nd2 best2,
        runTrialsLoop wp mp bl sf wf weight b rands nd best = .ok (nd2, best2) ∧
        nd2 = nd + (rands.countP fun r =>
          decide (runTrial wp mp bl sf wf weight b r = .ok none)) ∧
        (best2.isSome = true ↔ best.isSome = true ∨
          ∃ r ∈ rands, ∃ v, runTrial wp mp bl sf wf weight b r = .ok (some v)) := by
  intro rands
  induction rands with
  | nil =>
    intro _ nd best
    refine ⟨nd, best, rfl, by simp, ?_⟩
    simp
  | cons r rs ih =>
    intro hok nd best
    obtain ⟨v, hv⟩ := hok r (by simp)
    rcases v with _ | ⟨mts, overall⟩
    · -- discarded trial
      obtain ⟨nd2, best2, hrun, hnd, hbest⟩ :=
        ih (fun r' h => hok r' (List.mem_cons_of_mem _ h)) (nd + 1) best
      refine ⟨nd2, best2, ?_, ?_, ?_⟩
      · rw [runTrialsLoop, hv]
        exact hrun
      · rw [hnd, List.countP_cons_of_pos _ _ (by simp [hv])]
        omega
      · rw [hbest]
        constructor
        · rintro (h | ⟨r', hr', v', hv'⟩)
          · exact Or.inl h
          · exact Or.inr ⟨r', List.mem_cons_of_mem _ hr', v', hv'⟩
        · rintro (h | ⟨r', hr', v', hv'⟩)
          · exact Or.inl h
          · rcases List.mem_cons.mp hr' with e | e
            · subst e
              rw [hv] at hv'
              simp at hv'
            · exact Or.inr ⟨r', e, v', hv'⟩
    · -- surviving trial
      obtain ⟨nd2, best2, hrun, hnd, hbest⟩ :=
        ih (fun r' h => hok r' (List.mem_cons_of_mem _ h)) nd
          (some (match best with
            | none => (mts, overall)
            | some (bm, bs) => if bs < overall then (mts, overall) else (bm, bs)))
      refine ⟨nd2, best2, ?_, ?_, ?_⟩
      · rw [runTrialsLoop, hv]
        exact hrun
      · rw [hnd, List.countP_cons_of_neg _ _ (by simp [hv])]
      · rw [hbest]
        simp only [Option.isSome_some, true_or, true_iff]
        exact Or.inr ⟨r, by simp, (mts, overall), hv⟩

/-- **C9**: when `run_smp` runs all `N` trials on a well-formed input with
genuine per-trial randomness, it raises the exhaustion error if and only if
every one of the `N` trials was discarded by the blacklist filter; when at
least one trial survives, no exhaustion error is raised and a best match
with its score is returned instead of an empty best. -/
theorem C9_run_smp_exhaustion (wp mp bl : List (String × List String))
    (sf : String → List String → ℚ) (wf : ℚ → ℚ) (weight b : ℚ)
    (rands : List TrialRand) (VR : RawValid wp mp)
    (hr : ∀ r ∈ rands, GoodRand wp mp r) :
    (run_smp wp mp bl sf wf weight b rands = .error .exhaustion ↔
      discardCount wp mp bl sf wf weight b rands = rands.length) ∧
    (discardCount wp mp bl sf wf weight b rands < rands.length →
      ∃ bres, run_smp wp mp bl sf wf weight b rands = .ok bres) := by
  have htrial : ∀ r ∈ rands, ∃ v, runTrial wp mp bl sf wf weight b r = .ok v :=
    fun r h => runTrial_ok bl sf wf weight b VR (hr r h)
  obtain ⟨nd2, best2, hrun, hnd, hbest⟩ :=
    runTrialsLoop_spec wp mp bl sf wf weight b rands htrial 0 none
  rw [Nat.zero_add] at hnd
  have hD : nd2 = discardCount wp mp bl sf wf weight b rands := hnd
  have hDle : discardCount wp mp bl sf wf weight b rands ≤ rands.length :=
    List.countP_le_length _
  constructor
  · constructor
    · intro hex
      unfold run_smp at hex
      rw [hrun] at hex
      dsimp only at hex
      by_cases he : nd2 = rands.length
      · omega
      · rw [if_neg he] at hex
        rcases hb : best2 with _ | bres <;> rw [hb] at hex <;> simp at hex
    · intro hall
      unfold run_smp
      rw [hrun]
      dsimp only
      rw [if_pos (by omega)]
  · intro hlt
    have hnotall : ¬ (∀ r ∈ rands,
        (decide (runTrial wp mp bl sf wf weight b r = .ok none)) = true) := by
      intro hall
      have := List.countP_eq_length.mpr hall
      unfold discardCount at hlt
      omega
    push_neg at hnotall
    obtain ⟨r0, hr0, hne⟩ := hnotall
    obtain ⟨v0, hv0⟩ := htrial r0 hr0
    rcases v0 with _ | sv
    · rw [hv0] at hne
      simp at hne
    have hsome : best2.isSome = true :=
      hbest.mpr (Or.inr ⟨r0, hr0, sv, hv0⟩)
    rcases hb : best2 with _ | bres
    · rw [hb] at hsome
      simp at hsome
    refine ⟨bres, ?_⟩
    unfold run_smp
    rw [hrun]
    dsimp only
    rw [if_neg (by omega), hb]

/-- Identity randomness for a one-woman instance. -/
def r0 : TrialRand :=
  ⟨fun _ l => l, fun _ l => l, ["A"]⟩

theorem C9_run_smp_exhaustion_witness :
    (run_smp [("A", ["X"])] [("X", ["A"])] [] one_zero identity (1 / 2) 0 [r0]
        = .error .exhaustion ↔
      discardCount [("A", ["X"])] [("X", ["A"])] [] one_zero identity (1 / 2) 0
        [r0] = 1) ∧
      (discardCount [("A", ["X"])] [("X", ["A"])] [] one_zero identity (1 / 2) 0
          [r0] < 1 →
        ∃ bres, run_smp [("A", ["X"])] [("X", ["A"])] [] one_zero identity
          (1 / 2) 0 [r0] = .ok bres) :=
  C9_run_smp_exhaustion [("A", ["X"])] [("X", ["A"])] [] one_zero identity
    (1 / 2) 0 [r0] ⟨by decide, by decide, by decide, by decide, by decide⟩
    (by
      intro r h
      have hr0 : r = r0 := by simpa using h
      subst hr0
      exact ⟨by decide, fun p _ => List.Perm.refl _, fun p _ => List.Perm.refl _⟩)

end MatchSpec
